import Mathlib

/-!
Verification of `releat/gym_env/obs_processor.py` (repository `dizengoff/releat`).

The Python functions are shallowly embedded over `ℚ` (idealised real
arithmetic), `List` (numpy arrays / Python lists) and association lists
(Python dicts).  The aerospike store is a partial map `ℤ → Option Record`;
a store miss makes the embedded operation return `none` (the Python client
raises).  External collaborators that are not part of the sources
(`randint`, `apply_log_tail`, `apply_transform`) are modelled from the
specification and marked as such in their doc comments.
-/

/-- Python `int(q)` for a rational `q`: truncation toward zero. -/
def pyInt (q : ℚ) : ℤ := if 0 ≤ q then ⌊q⌋ else ⌈q⌉

/-- Python/numpy extended slice `l[::s]`: every `s`-th element starting at 0. -/
def pyStride : List α → ℕ → List α
  | [], _ => []
  | x :: rest, s => x :: pyStride (rest.drop (s - 1)) s
termination_by l _ => l.length
decreasing_by simp only [List.length_cons, List.length_drop]; omega

/-- Python slice `l[-n:]`.  Note the Python gotcha: for `n = 0` this is
`l[0:]`, i.e. the whole list. -/
def pySliceLast (l : List α) (n : ℕ) : List α :=
  if n = 0 then l else l.drop (l.length - n)

/-- Dict lookup with an explicit default (the embedded code is only used at
keys that are present; the default stands for Python's `KeyError` branch). -/
def lookupD {α : Type} : List (String × α) → String → α → α
  | [], _, d => d
  | p :: rest, k, d => if p.1 = k then p.2 else lookupD rest k d

/-- Python dict assignment `d[k] = v`: replaces the value in place if the key
exists (keeping its position), otherwise appends the new key at the end. -/
def assocSet {α : Type} : List (String × α) → String → α → List (String × α)
  | [], k, v => [(k, v)]
  | p :: rest, k, v => if p.1 = k then (k, v) :: rest else p :: assocSet rest k v

/-- One record (`bins`) returned by `client.get`: the per-feature-group field
plus the side-channel fields `date`, `trade_price`, `date_arr`. -/
structure Record where
  feat : String → List ℚ
  date : ℚ
  trade_price : ℚ
  date_arr : List ℚ

instance : Inhabited Record := ⟨⟨fun _ => [], 0, 0, []⟩⟩

/-- The aerospike store restricted to one `(namespace, set)`: a partial map
from the integer table index to the record; `none` is a store miss. -/
def Store : Type := ℤ → Option Record

/-- Feature array: rows = time, columns = feature channels. -/
abbrev FArr := List (List ℚ)

/-- String-keyed association list standing for the Python dicts
`raw_data` / `obs` (group-id → 2D float array). -/
abbrev Assoc := List (String × FArr)

/-- The `raw_data` dict built by `init_raw_data`: per-group buffers plus the
side channels. -/
structure RawData where
  feat : Assoc
  date : ℚ
  trade_price : ℚ
  date_arr : List ℚ
deriving DecidableEq

instance : Inhabited RawData := ⟨⟨[], 0, 0, []⟩⟩

/-- The group keys: `[x for x in raw_data_shape.keys() if x != "max"]`. -/
def featGroupInds (shape : List (String × ℕ)) : List String :=
  (shape.map Prod.fst).filter (fun x => x ≠ "max")

/-- The fetch loop `for j in range(lo, lo + n): client.get(...)`: `none` as
soon as any record in the range is missing. -/
def fetchRange (store : Store) (lo : ℤ) : ℕ → Option (List Record)
  | 0 => some []
  | n + 1 =>
    match store lo, fetchRange store (lo + 1) n with
    | some r, some rs => some (r :: rs)
    | _, _ => none

/-- Embedding of `init_raw_data` (obs_processor.py lines 12-61): fetches the
`shape["max"] + 1` records `i - shape["max"] .. i`, buffers each feature
group's field across the fetch range, truncates each buffer to its last
`shape[k]` entries, and takes the side channels from the last fetched
record. -/
def init_raw_data (shape : List (String × ℕ)) (store : Store) (i : ℤ) :
    Option RawData :=
  let mx := lookupD shape "max" 0
  let ks := featGroupInds shape
  match fetchRange store (i - mx) (mx + 1) with
  | none => none
  | some recs =>
    let bins := recs.getLastD default
    some { feat := ks.map fun k =>
             (k, pySliceLast (recs.map fun r => r.feat k) (lookupD shape k 0)),
           date := bins.date
           trade_price := bins.trade_price
           date_arr := bins.date_arr }

/-- Embedding of `update_raw_data` (obs_processor.py lines 64-104): fetches the single
record at `i`; for each feature group `np.vstack([raw_data[k], bins[k]])[1:]`,
i.e. append the new row then drop the oldest; side channels from the new
record. -/
def update_raw_data (shape : List (String × ℕ)) (store : Store)
    (raw : RawData) (i : ℤ) : Option RawData :=
  match store i with
  | none => none
  | some bins =>
    let ks := featGroupInds shape
    some { feat := ks.foldl
             (fun acc k => assocSet acc k ((lookupD acc k [] ++ [bins.feat k]).drop 1))
             raw.feat,
           date := bins.date
           trade_price := bins.trade_price
           date_arr := bins.date_arr }

/-- One `simple_features` entry of a feature-group config: the bound symbol
and the ordered transform chain.  `apply_transform` lives in
`releat.data.transformers`, outside these sources; modelled from the spec as
an opaque numeric stage function `List ℚ → List ℚ` applied in order. -/
structure SimpleFeatureConfig where
  symbol : String
  transforms : List (List ℚ → List ℚ)

instance : Inhabited SimpleFeatureConfig := ⟨⟨"", []⟩⟩

/-- A feature-group entry of `config["features"]`. -/
structure FeatureGroupConfig where
  simple_features : List SimpleFeatureConfig

instance : Inhabited FeatureGroupConfig := ⟨⟨[]⟩⟩

/-- Per-symbol descriptor; only the pip size is read by this module. -/
structure SymbolInfo where
  pip : ℚ
deriving DecidableEq

instance : Inhabited SymbolInfo := ⟨⟨0⟩⟩

/-- The slice of `config` that `get_obs` and `get_curr_price` read. -/
structure GymConfig where
  features : List FeatureGroupConfig
  symbol_info_index : String → ℕ
  symbol_info : List SymbolInfo

/-- The feature config `config["features"][g].simple_features[0]` (obs_processor.py lines
134-136, `feat_ind = 0`). -/
def fcOf (cfg : GymConfig) (g : ℕ) : SimpleFeatureConfig :=
  ((cfg.features.getD g default).simple_features.getD 0 default)

/-- The pip looked up for group `g`'s first simple feature (lines 140-142). -/
def pipOf (cfg : GymConfig) (g : ℕ) : ℚ :=
  (cfg.symbol_info.getD (cfg.symbol_info_index (fcOf cfg g).symbol) default).pip

/-- The transform chain of group `g`'s first simple feature. -/
def tsOf (cfg : GymConfig) (g : ℕ) : List (List ℚ → List ℚ) :=
  (fcOf cfg g).transforms

/-- Lines 137-138 of `get_obs` for one group: take channel 0 of the
downsampled array and subtract its final value (`feats - feats[-1]`),
producing the zero-anchored delta series. -/
def deltaSeries (arr : FArr) : List ℚ :=
  (arr.map List.headI).map fun x => x - (arr.map List.headI).getLastD 0

/-- Lines 137-147 of `get_obs` for one group: the delta series with its
final (now-zero) point dropped, divided by the pip, then run through the
transform chain in order. -/
def featsOut (pip : ℚ) (ts : List (List ℚ → List ℚ)) (arr : FArr) : List ℚ :=
  ts.foldl (fun a t => t a) ((deltaSeries arr).dropLast.map (· / pip))

/-- Lines 149-150 for one group: drop the first row of the downsampled
array, then write the processed series back into channel 0. -/
def processGroup (pip : ℚ) (ts : List (List ℚ → List ℚ)) (arr : FArr) : FArr :=
  List.zipWith (fun v row => v :: row.drop 1) (featsOut pip ts arr) (arr.drop 1)

/-- Effect on the raw buffer of the in-place write
`obs[str(g)][:, 0] = feats[:, 0]` performed through the numpy views
`raw_data[k][::s][1:]`: raw row `s*j` (for `j = 1, 2, ...`) gets its channel
0 overwritten by `feats[j-1]`. -/
def mutateStride (buf : FArr) (s : ℕ) (f : List ℚ) : FArr :=
  buf.enum.map fun p =>
    if p.1 % s = 0 ∧ 1 ≤ p.1 / s ∧ p.1 / s ≤ f.length then
      f.getD (p.1 / s - 1) 0 :: p.2.drop 1
    else p.2

/-- One iteration of the second loop of `get_obs` (lines 133-151), acting on
the pair (obs dict, raw_data feature dict).  The raw dict component records
the write-through of line 150 into the underlying `raw_data` buffers. -/
def getObsStep (cfg : GymConfig) (itv : List (String × ℕ))
    (st : Assoc × Assoc) (g : ℕ) : Assoc × Assoc :=
  let key := toString g
  let arr := lookupD st.1 key []
  let f := featsOut (pipOf cfg g) (tsOf cfg g) arr
  let s := lookupD itv key 1
  (assocSet st.1 key (processGroup (pipOf cfg g) (tsOf cfg g) arr),
   assocSet st.2 key (mutateStride (lookupD st.2 key []) s f))

/-- The observation returned by `get_obs`: the per-group arrays plus the
`date_arr` side channel. -/
structure GymObs where
  groups : Assoc
  date_arr : List ℚ
deriving DecidableEq

/-- Embedding of `get_obs` (obs_processor.py lines 107-154).  Returns the observation
together with the post-call `raw_data`: because `raw_data[k][::s]` is a
numpy view, the channel-0 write of line 150 goes through to `raw_data`,
which the second component makes explicit. -/
def get_obs (cfg : GymConfig) (itv : List (String × ℕ)) (raw : RawData) :
    GymObs × RawData :=
  let obs0 : Assoc := itv.map fun p => (p.1, pyStride (lookupD raw.feat p.1 []) p.2)
  let st := (List.range itv.length).foldl (getObsStep cfg itv) (obs0, raw.feat)
  (⟨st.1, raw.date_arr⟩, { raw with feat := st.2 })

/-- Modelled from the spec: `apply_log_tail` (releat.data.simple.stats, not
under src/).  The spec says it "is identity below the threshold and applies
a sign-preserving logarithmic compression above it, with `log_base`
controlling aggressiveness"; `scale_pos_val` calls it with threshold 0 and
`log_base = -1`.  The model is any function with those properties at
threshold 0: identity at or below 0, monotone, strictly positive and
bounded by the identity (compression) above 0. -/
structure LogTailModel where
  f : ℚ → ℚ
  identBelow : ∀ x : ℚ, x ≤ 0 → f x = x
  mono : Monotone f
  signPos : ∀ x : ℚ, 0 < x → 0 < f x
  compress : ∀ x : ℚ, 0 ≤ x → f x ≤ x

/-- Embedding of `scale_pos_val` (obs_processor.py lines 157-175), parameterised by the
externally defined `apply_log_tail(·, 0, -1)`:
`clip(log_tail(x)/3 + x*0.03, -2, 2)`. -/
def scale_pos_val (lt : ℚ → ℚ) (x : ℚ) : ℚ :=
  let scalar := x * (3 / 100)
  max (-2) (min 2 (lt x / 3 + scalar))

/-- Modelled from the spec: `randint` (releat.data.simple.stats, not under
src/) "draws a uniformly random integer" in `[lo, hi)`.  A draw function is
valid when every drawn value lies in that half-open range. -/
def RandValid (rand : ℤ → ℤ → ℤ) : Prop :=
  ∀ lo hi : ℤ, lo < hi → lo ≤ rand lo hi ∧ rand lo hi < hi

/-- Embedding of `sample_price` (obs_processor.py lines 178-195), parameterised by the
draw function: `randint(int(min_p*10/pip), int(max_p*10/pip) + 1) * pip / 10`. -/
def sample_price (rand : ℤ → ℤ → ℤ) (min_p max_p pip : ℚ) : ℚ :=
  (rand (pyInt (min_p * 10 / pip)) (pyInt (max_p * 10 / pip) + 1) : ℚ) * pip / 10

/-- A price `q` lies on the `pip/10` grid exactly when Python's
`int(q*10/pip) * pip / 10` reproduces it. -/
def onPipGrid (pip q : ℚ) : Prop := (pyInt (q * 10 / pip) : ℚ) * (pip / 10) = q

/-- Embedding of `portfolio_to_model_input` (obs_processor.py lines 198-222):
`v = portfolio[:, 5::7]`, `v[:,1] = scale_pos_val(v[:,1])`,
`v[:,0] = v[:,0] * portfolio[:,6] / 2`, `v.flatten()`.  Returns `none` when
the column selection or the column-6 read is out of bounds. -/
def portfolio_to_model_input (lt : ℚ → ℚ) (P : List (List ℚ)) :
    Option (List ℚ) :=
  let v := P.map fun r => pyStride (r.drop 5) 7
  if (v.all fun s => 2 ≤ s.length) ∧ (P.all fun r => 7 ≤ r.length) then
    some ((P.zip v).foldr
      (fun rs acc =>
        (match rs.2 with
         | a :: b :: rest => (a * rs.1.getD 6 0 / 2) :: scale_pos_val lt b :: rest
         | other => other) ++ acc) [])
  else none

/-- Embedding of `get_curr_price` (obs_processor.py lines 225-237): row `i` samples bid
from `price[4i], price[4i+1]` and ask from `price[4i+2], price[4i+3]`; the
pip is read from `symbol_info[0]` on every iteration. -/
def get_curr_price (rand : ℤ → ℤ → ℤ) (si : List SymbolInfo)
    (price : List ℚ) : List (List ℚ) :=
  (List.range si.length).map fun i =>
    [sample_price rand (price.getD (4 * i) 0) (price.getD (4 * i + 1) 0)
       (si.getD 0 default).pip,
     sample_price rand (price.getD (4 * i + 2) 0) (price.getD (4 * i + 3) 0)
       (si.getD 0 default).pip]

lemma lookupD_assocSet_self {α : Type} (l : List (String × α)) (k : String)
    (v : α) (d : α) : lookupD (assocSet l k v) k d = v := by
  induction l with
  | nil => simp [assocSet, lookupD]
  | cons p rest ih =>
    by_cases h : p.1 = k
    · simp [assocSet, h, lookupD]
    · simp [assocSet, h, lookupD, ih]

lemma lookupD_assocSet_other {α : Type} (l : List (String × α))
    (k k' : String) (v : α) (d : α) (h : k ≠ k') :
    lookupD (assocSet l k' v) k d = lookupD l k d := by
  induction l with
  | nil => simp [assocSet, lookupD, Ne.symm h]
  | cons p rest ih =>
    by_cases hp : p.1 = k'
    · simp [assocSet, hp, lookupD, Ne.symm h, hp ▸ (Ne.symm h)]
    · by_cases hk : p.1 = k
      · simp [assocSet, hp, lookupD, hk, h]
      · simp [assocSet, hp, lookupD, hk, ih]

lemma lookupD_map_self {α : Type} (ks : List String) (F : String → α)
    (k : String) (d : α) (hk : k ∈ ks) :
    lookupD (ks.map fun k => (k, F k)) k d = F k := by
  induction ks with
  | nil => cases hk
  | cons a rest ih =>
    by_cases h : a = k
    · simp [lookupD, h]
    · rcases List.mem_cons.mp hk with hk | hk
      · exact absurd hk.symm h
      · simp [lookupD, h, ih hk]

lemma lookupD_mem_nodup {α : Type} (l : List (String × α)) (k : String)
    (v : α) (d : α) (hm : (k, v) ∈ l) (hnd : (l.map Prod.fst).Nodup) :
    lookupD l k d = v := by
  induction l with
  | nil => cases hm
  | cons p rest ih =>
    simp only [List.map_cons, List.nodup_cons] at hnd
    rcases List.mem_cons.mp hm with hm | hm
    · simp [lookupD, ← hm]
    · have hne : p.1 ≠ k := by
        intro h
        exact hnd.1 (h ▸ List.mem_map_of_mem Prod.fst hm)
      simp [lookupD, hne, ih hm hnd.2]

lemma foldl_assocSet_not_mem {α : Type} (ks : List String)
    (G : List (String × α) → String → α) (l : List (String × α))
    (k : String) (d : α) (hk : k ∉ ks) :
    lookupD (ks.foldl (fun acc k' => assocSet acc k' (G acc k')) l) k d =
      lookupD l k d := by
  induction ks generalizing l with
  | nil => rfl
  | cons a rest ih =>
    have hka : k ≠ a := fun h => hk (h ▸ List.mem_cons_self a rest)
    have hkr : k ∉ rest := fun h => hk (List.mem_cons_of_mem a h)
    simp only [List.foldl_cons]
    rw [ih _ hkr, lookupD_assocSet_other _ _ _ _ _ hka]

lemma foldl_assocSet_lookup {α : Type} (ks : List String)
    (F : String → α → α) (l : List (String × α)) (k : String) (d : α)
    (hk : k ∈ ks) (hnd : ks.Nodup) :
    lookupD (ks.foldl (fun acc k' => assocSet acc k' (F k' (lookupD acc k' d))) l) k d =
      F k (lookupD l k d) := by
  induction ks generalizing l with
  | nil => cases hk
  | cons a rest ih =>
    simp only [List.nodup_cons] at hnd
    simp only [List.foldl_cons]
    rcases List.mem_cons.mp hk with hk | hk
    · subst hk
      rw [foldl_assocSet_not_mem rest _ _ _ _ hnd.1,
        lookupD_assocSet_self]
    · have hka : k ≠ a := fun h => hnd.1 (h ▸ hk)
      rw [ih _ hk hnd.2, lookupD_assocSet_other _ _ _ _ _ hka]

lemma pySliceLast_length {α : Type} (l : List α) (n : ℕ) (h1 : 1 ≤ n)
    (h2 : n ≤ l.length) : (pySliceLast l n).length = n := by
  have hn : n ≠ 0 := by omega
  simp [pySliceLast, hn]
  omega

lemma fetchRange_isSome_iff (store : Store) (lo : ℤ) (n : ℕ) :
    (fetchRange store lo n).isSome ↔ ∀ t : ℕ, t < n → (store (lo + t)).isSome := by
  induction n generalizing lo with
  | zero => simp [fetchRange]
  | succ m ih =>
    constructor
    · intro h t ht
      cases hs : store lo with
      | none => rw [fetchRange, hs] at h; simp at h
      | some r =>
        cases hr : fetchRange store (lo + 1) m with
        | none => rw [fetchRange, hs, hr] at h; simp at h
        | some rs =>
          rcases Nat.eq_zero_or_pos t with h0 | hpos
          · subst h0; simpa using congrArg Option.isSome hs
          · have := (ih (lo + 1)).1 (by rw [hr]; rfl) (t - 1) (by omega)
            have harg : lo + 1 + ((t : ℤ) - 1) = lo + t := by ring
            have hcast : ((t - 1 : ℕ) : ℤ) = (t : ℤ) - 1 := by
              push_cast [Nat.cast_sub hpos]; ring
            rw [hcast, harg] at this
            exact this
    · intro h
      have h0 : (store lo).isSome := by simpa using h 0 (by omega)
      cases hs : store lo with
      | none => rw [hs] at h0; simp at h0
      | some r =>
        have hrest : (fetchRange store (lo + 1) m).isSome := by
          apply (ih (lo + 1)).2
          intro t ht
          have := h (t + 1) (by omega)
          have harg : lo + ((t : ℤ) + 1) = lo + 1 + t := by ring
          push_cast at this ⊢
          rw [← harg]
          exact this
        cases hr : fetchRange store (lo + 1) m with
        | none => rw [hr] at hrest; simp at hrest
        | some rs => rw [fetchRange, hs, hr]; rfl

lemma fetchRange_length (store : Store) (lo : ℤ) (n : ℕ) (l : List Record)
    (h : fetchRange store lo n = some l) : l.length = n := by
  induction n generalizing lo l with
  | zero => simp [fetchRange] at h; simp [← h]
  | succ m ih =>
    cases hs : store lo with
    | none => rw [fetchRange, hs] at h; simp at h
    | some r =>
      cases hr : fetchRange store (lo + 1) m with
      | none => rw [fetchRange, hs, hr] at h; simp at h
      | some rs =>
        rw [fetchRange, hs, hr] at h
        simp only [Option.some.injEq] at h
        simp [← h, ih (lo + 1) rs hr]

lemma fetchRange_congr (store store' : Store) (lo : ℤ) (n : ℕ)
    (h : ∀ t : ℕ, t < n → store (lo + t) = store' (lo + t)) :
    fetchRange store lo n = fetchRange store' lo n := by
  induction n generalizing lo with
  | zero => rfl
  | succ m ih =>
    have h0 : store lo = store' lo := by simpa using h 0 (by omega)
    have hrest : fetchRange store (lo + 1) m = fetchRange store' (lo + 1) m := by
      apply ih
      intro t ht
      have := h (t + 1) (by omega)
      have harg : lo + ((t : ℤ) + 1) = lo + 1 + t := by ring
      push_cast at this ⊢
      rw [← harg]
      exact this
    rw [fetchRange, fetchRange, h0, hrest]

lemma pyStride_length_aux {α : Type} (s : ℕ) (hs : 1 ≤ s) :
    ∀ (n : ℕ) (l : List α), l.length ≤ n →
      (pyStride l s).length = (l.length + s - 1) / s := by
  intro n
  induction n with
  | zero =>
    intro l hl
    have h0 : l = [] := List.eq_nil_of_length_eq_zero (by omega)
    subst h0
    simp [pyStride, Nat.div_eq_of_lt (show s - 1 < s by omega)]
  | succ m ih =>
    intro l hl
    cases l with
    | nil => simp [pyStride, Nat.div_eq_of_lt (show s - 1 < s by omega)]
    | cons x rest =>
      simp only [List.length_cons] at hl
      have hrec := ih (rest.drop (s - 1)) (by simp; omega)
      simp only [pyStride, List.length_cons, hrec, List.length_drop]
      rcases le_or_lt rest.length (s - 1) with hc | hc
      · have h0 : rest.length - (s - 1) = 0 := by omega
        have h1 : rest.length + 1 + s - 1 = rest.length + s := by omega
        rw [h0, h1, Nat.add_div_right _ (by omega),
          Nat.div_eq_of_lt (show rest.length < s by omega),
          Nat.div_eq_of_lt (show 0 + s - 1 < s by omega)]
      · have h0 : rest.length - (s - 1) + s - 1 = rest.length := by omega
        have h1 : rest.length + 1 + s - 1 = rest.length + s := by omega
        rw [h0, h1, Nat.add_div_right _ (by omega)]

lemma pyStride_length {α : Type} (s : ℕ) (hs : 1 ≤ s) (l : List α) :
    (pyStride l s).length = (l.length + s - 1) / s :=
  pyStride_length_aux s hs l.length l (le_refl _)

lemma lookupD_map_pairs {α β : Type} (itv : List (String × α))
    (F : String → α → β) (k : String) (s : α) (d : β)
    (hm : (k, s) ∈ itv) (hnd : (itv.map Prod.fst).Nodup) :
    lookupD (itv.map fun p => (p.1, F p.1 p.2)) k d = F k s := by
  induction itv with
  | nil => cases hm
  | cons q rest ih =>
    simp only [List.map_cons, List.nodup_cons] at hnd
    rcases List.mem_cons.mp hm with hm | hm
    · simp [lookupD, ← hm]
    · have hne : q.1 ≠ k := by
        intro h
        exact hnd.1 (h ▸ List.mem_map_of_mem Prod.fst hm)
      simp [lookupD, hne, ih hm hnd.2]

lemma getObs_foldl_preserve (cfg : GymConfig) (itv : List (String × ℕ))
    (k : String) (l : List ℕ) (st : Assoc × Assoc)
    (h : ∀ g, g ∈ l → toString g ≠ k) :
    lookupD (l.foldl (getObsStep cfg itv) st).1 k [] = lookupD st.1 k [] ∧
    lookupD (l.foldl (getObsStep cfg itv) st).2 k [] = lookupD st.2 k [] := by
  induction l generalizing st with
  | nil => exact ⟨rfl, rfl⟩
  | cons a rest ih =>
    have ha : toString a ≠ k := h a (List.mem_cons_self a rest)
    have hrest := ih (getObsStep cfg itv st a)
      (fun g hg => h g (List.mem_cons_of_mem a hg))
    refine ⟨?_, ?_⟩
    · rw [List.foldl_cons, hrest.1]
      exact lookupD_assocSet_other _ _ _ _ _ (Ne.symm ha)
    · rw [List.foldl_cons, hrest.2]
      exact lookupD_assocSet_other _ _ _ _ _ (Ne.symm ha)

lemma getObs_foldl_lookup (cfg : GymConfig) (itv : List (String × ℕ))
    (g : ℕ) (l : List ℕ) (st : Assoc × Assoc)
    (hg : g ∈ l) (hnd : l.Nodup)
    (hinj : ∀ g', g' ∈ l → toString g' = toString g → g' = g) :
    lookupD (l.foldl (getObsStep cfg itv) st).1 (toString g) [] =
      processGroup (pipOf cfg g) (tsOf cfg g) (lookupD st.1 (toString g) []) ∧
    lookupD (l.foldl (getObsStep cfg itv) st).2 (toString g) [] =
      mutateStride (lookupD st.2 (toString g) []) (lookupD itv (toString g) 1)
        (featsOut (pipOf cfg g) (tsOf cfg g) (lookupD st.1 (toString g) [])) := by
  induction l generalizing st with
  | nil => cases hg
  | cons a rest ih =>
    simp only [List.nodup_cons] at hnd
    rcases List.mem_cons.mp hg with hg | hg
    · subst hg
      have hpres : ∀ g', g' ∈ rest → toString g' ≠ toString g := by
        intro g' hg' heq
        have := hinj g' (List.mem_cons_of_mem g hg') heq
        exact hnd.1 (this ▸ hg')
      have hp := getObs_foldl_preserve cfg itv (toString g) rest
        (getObsStep cfg itv st g) hpres
      rw [List.foldl_cons] at *
      refine ⟨?_, ?_⟩
      · rw [hp.1]
        exact lookupD_assocSet_self _ _ _ _
      · rw [hp.2]
        exact lookupD_assocSet_self _ _ _ _
    · have hag : a ≠ g := by
        intro h
        exact hnd.1 (h ▸ hg)
      have hakey : toString a ≠ toString g := by
        intro h
        exact hag (hinj a (List.mem_cons_self a rest) h)
      have hstep1 : lookupD (getObsStep cfg itv st a).1 (toString g) [] =
          lookupD st.1 (toString g) [] :=
        lookupD_assocSet_other _ _ _ _ _ (Ne.symm hakey)
      have hstep2 : lookupD (getObsStep cfg itv st a).2 (toString g) [] =
          lookupD st.2 (toString g) [] :=
        lookupD_assocSet_other _ _ _ _ _ (Ne.symm hakey)
      have := ih (getObsStep cfg itv st a) hg hnd.2
        (fun g' hg' heq => hinj g' (List.mem_cons_of_mem a hg') heq)
      rw [List.foldl_cons, this.1, this.2, hstep1, hstep2]
      exact ⟨rfl, rfl⟩

lemma get_obs_group (cfg : GymConfig) (itv : List (String × ℕ))
    (raw : RawData) (g : ℕ) (s : ℕ)
    (hmem : (toString g, s) ∈ itv)
    (hnd : (itv.map Prod.fst).Nodup)
    (hinj : ∀ g', g' < itv.length → toString g' = toString g → g' = g)
    (hg : g < itv.length) :
    lookupD (get_obs cfg itv raw).1.groups (toString g) [] =
      processGroup (pipOf cfg g) (tsOf cfg g)
        (pyStride (lookupD raw.feat (toString g) []) s) ∧
    lookupD (get_obs cfg itv raw).2.feat (toString g) [] =
      mutateStride (lookupD raw.feat (toString g) []) s
        (featsOut (pipOf cfg g) (tsOf cfg g)
          (pyStride (lookupD raw.feat (toString g) []) s)) := by
  have hobs0 : lookupD (itv.map fun p => (p.1, pyStride (lookupD raw.feat p.1 []) p.2))
      (toString g) [] = pyStride (lookupD raw.feat (toString g) []) s :=
    lookupD_map_pairs itv (fun k v => pyStride (lookupD raw.feat k []) v) _ _ _ hmem hnd
  have hstr : lookupD itv (toString g) 1 = s := lookupD_mem_nodup itv _ _ _ hmem hnd
  have hfold := getObs_foldl_lookup cfg itv g (List.range itv.length)
    (itv.map fun p => (p.1, pyStride (lookupD raw.feat p.1 []) p.2), raw.feat)
    (List.mem_range.mpr hg) (List.nodup_range itv.length)
    (fun g' hg' heq => hinj g' (List.mem_range.mp hg') heq)
  rw [hobs0, hstr] at hfold
  exact hfold

/-- Shape map of the spec's test scenario: `{"0": 10, "max": 10}`. -/
def scenShape : List (String × ℕ) := [("0", 10), ("max", 10)]

/-- The eleven synthetic ticks `100.0, 100.1, ..., 101.0` of the scenario. -/
def scenTicks : List ℚ :=
  [100, 1001/10, 1002/10, 1003/10, 1004/10, 1005/10,
   1006/10, 1007/10, 1008/10, 1009/10, 1010/10]

/-- Store of the scenario: record `j` (for `0 ≤ j ≤ 10`) carries the single
synthetic tick `100.0 + j/10`. -/
def scenStore : Store := fun j =>
  if 0 ≤ j ∧ j ≤ 10 then
    some ⟨fun _ => [scenTicks.getD j.toNat 0], 0, scenTicks.getD j.toNat 0, [0]⟩
  else none

/-- The raw window of the scenario: the last ten ticks, most recent last
(what `init_raw_data scenShape scenStore 10` builds). -/
def scenRaw : RawData :=
  ⟨[("0", [[1001/10], [1002/10], [1003/10], [1004/10], [1005/10],
           [1006/10], [1007/10], [1008/10], [1009/10], [1010/10]])],
   0, 1010/10, [0]⟩

/-- Config of the scenario: one feature group, one simple feature bound to a
symbol with `pip = 0.0001`, empty transform chain. -/
def scenCfg : GymConfig :=
  ⟨[⟨[⟨"EURUSD", []⟩]⟩], fun _ => 0, [⟨1 / 10000⟩]⟩

/-- Downsample intervals of the scenario: `{"0": 1}`. -/
def scenItv : List (String × ℕ) := [("0", 1)]

lemma mem_featGroupInds (shape : List (String × ℕ)) (k : String) (n : ℕ)
    (hmem : (k, n) ∈ shape) (hk : k ≠ "max") : k ∈ featGroupInds shape := by
  simp only [featGroupInds, List.mem_filter, decide_eq_true_eq]
  exact ⟨List.mem_map_of_mem Prod.fst hmem, hk⟩

/-- C1: for every valid shape map (positive group lengths, each bounded by
the `"max"` entry), `init_raw_data` produces buffers of length exactly
`shape[k]`, and `update_raw_data` replaces each buffer by its tail with the
newly fetched record's field appended at the end, preserving the length. -/
theorem raw_window_invariants
    (shape : List (String × ℕ)) (store : Store) (raw : RawData) (i : ℤ)
    (k : String) (n mx : ℕ) (w w2 : RawData) (bins : Record)
    (hmax : lookupD shape "max" 0 = mx)
    (hmem : (k, n) ∈ shape) (hk : k ≠ "max")
    (hn : 1 ≤ n) (hnmx : n ≤ mx)
    (hnd : (shape.map Prod.fst).Nodup) :
    (init_raw_data shape store i = some w →
      (lookupD w.feat k []).length = n) ∧
    (store i = some bins →
     update_raw_data shape store raw i = some w2 →
     (lookupD raw.feat k []).length = n →
       lookupD w2.feat k [] = (lookupD raw.feat k []).drop 1 ++ [bins.feat k] ∧
       (lookupD w2.feat k []).length = n) := by
  have hkmem : k ∈ featGroupInds shape := mem_featGroupInds shape k n hmem hk
  have hlook : lookupD shape k 0 = n := lookupD_mem_nodup shape k n 0 hmem hnd
  constructor
  · intro h
    simp only [init_raw_data, hmax] at h
    cases hfr : fetchRange store (i - mx) (mx + 1) with
    | none => rw [hfr] at h; cases h
    | some recs =>
      rw [hfr] at h
      simp only [Option.some.injEq] at h
      have hw : lookupD w.feat k [] =
          pySliceLast (recs.map fun r => r.feat k) (lookupD shape k 0) := by
        rw [← h]
        exact lookupD_map_self (featGroupInds shape)
          (fun k => pySliceLast (recs.map fun r => r.feat k) (lookupD shape k 0))
          k [] hkmem
      rw [hw, hlook]
      apply pySliceLast_length _ _ hn
      rw [List.length_map, fetchRange_length store _ _ recs hfr]
      omega
  · intro hs hu hlen
    simp only [update_raw_data, hs] at hu
    simp only [Option.some.injEq] at hu
    have hnodupks : (featGroupInds shape).Nodup := hnd.filter _
    have hw2 : lookupD w2.feat k [] =
        (lookupD raw.feat k [] ++ [bins.feat k]).drop 1 := by
      rw [← hu]
      exact foldl_assocSet_lookup (featGroupInds shape)
        (fun k v => (v ++ [bins.feat k]).drop 1) raw.feat k [] hkmem hnodupks
    have hne : lookupD raw.feat k [] ≠ [] := by
      intro h0
      rw [h0] at hlen
      simp at hlen
      omega
    rw [hw2, List.drop_append_of_le_length (by omega)]
    constructor
    · rfl
    · simp
      omega

/-- C9: `init_raw_data` reads exactly the `shape["max"] + 1` consecutive
records ending at `i` inclusive — it fails (returns nothing) as soon as any
record in that range is missing, succeeds when all are present, and its
result depends on no store entry outside the range; `update_raw_data` reads
exactly the single record at `i` with the same failure behaviour. -/
theorem fetch_failure_semantics
    (shape : List (String × ℕ)) (store store2 : Store) (raw : RawData)
    (i : ℤ) (mx : ℕ) (hmax : lookupD shape "max" 0 = mx) :
    ((∃ j : ℤ, i - mx ≤ j ∧ j ≤ i ∧ store j = none) →
      init_raw_data shape store i = none) ∧
    ((∀ j : ℤ, i - mx ≤ j → j ≤ i → (store j).isSome) →
      (init_raw_data shape store i).isSome) ∧
    ((∀ j : ℤ, i - mx ≤ j → j ≤ i → store j = store2 j) →
      init_raw_data shape store i = init_raw_data shape store2 i) ∧
    (store i = none → update_raw_data shape store raw i = none) ∧
    ((store i).isSome → (update_raw_data shape store raw i).isSome) ∧
    (store i = store2 i →
      update_raw_data shape store raw i = update_raw_data shape store2 raw i) := by
  refine ⟨?_, ?_, ?_, ?_, ?_, ?_⟩
  · rintro ⟨j, h1, h2, h3⟩
    simp only [init_raw_data, hmax]
    cases hfr : fetchRange store (i - mx) (mx + 1) with
    | none => rfl
    | some recs =>
      exfalso
      have hall := (fetchRange_isSome_iff store (i - mx) (mx + 1)).1
        (by rw [hfr]; rfl)
      have ht : (j - (i - mx)).toNat < mx + 1 := by omega
      have := hall _ ht
      have harg : i - mx + ((j - (i - mx)).toNat : ℤ) = j := by omega
      rw [harg, h3] at this
      cases this
  · intro h
    simp only [init_raw_data, hmax]
    have : (fetchRange store (i - mx) (mx + 1)).isSome := by
      apply (fetchRange_isSome_iff store (i - mx) (mx + 1)).2
      intro t ht
      exact h (i - mx + t) (by omega) (by omega)
    cases hfr : fetchRange store (i - mx) (mx + 1) with
    | none => rw [hfr] at this; cases this
    | some recs => rfl
  · intro h
    have : fetchRange store (i - mx) (mx + 1) = fetchRange store2 (i - mx) (mx + 1) := by
      apply fetchRange_congr
      intro t ht
      exact h (i - mx + t) (by omega) (by omega)
    simp only [init_raw_data, hmax, this]
  · intro h
    simp only [update_raw_data, h]
  · intro h
    cases hs : store i with
    | none => rw [hs] at h; cases h
    | some bins => simp only [update_raw_data, hs]; rfl
  · intro h
    simp only [update_raw_data, h]

/-- Store identical to the scenario store except that record 0 is missing. -/
def scenBadStore : Store := fun j => if j = 0 then none else scenStore j

theorem raw_window_invariants_concrete :
    (lookupD scenRaw.feat "0" []).length = 10 ∧
    (lookupD ((update_raw_data scenShape scenStore scenRaw 10).getD default).feat
      "0" []).length = 10 := by
  have h := raw_window_invariants scenShape scenStore scenRaw 10 "0" 10 10
    scenRaw ((update_raw_data scenShape scenStore scenRaw 10).getD default)
    ((scenStore 10).getD default) rfl (by decide) (by decide) (by decide)
    (by decide) (by decide)
  have hinit : init_raw_data scenShape scenStore 10 = some scenRaw := by rfl
  have hlen : (lookupD scenRaw.feat "0" []).length = 10 := h.1 hinit
  have hbins : scenStore 10 = some ((scenStore 10).getD default) := by rfl
  have hupd : update_raw_data scenShape scenStore scenRaw 10 =
      some ((update_raw_data scenShape scenStore scenRaw 10).getD default) := by rfl
  exact ⟨hlen, (h.2 hbins hupd hlen).2⟩

theorem fetch_failure_semantics_concrete :
    init_raw_data scenShape scenBadStore 10 = none ∧
    (init_raw_data scenShape scenStore 10).isSome ∧
    update_raw_data scenShape scenBadStore scenRaw 0 = none ∧
    (update_raw_data scenShape scenStore scenRaw 10).isSome := by
  refine ⟨?_, ?_, ?_, ?_⟩
  · exact (fetch_failure_semantics scenShape scenBadStore scenBadStore scenRaw
      10 10 rfl).1 ⟨0, by omega, by omega, rfl⟩
  · apply (fetch_failure_semantics scenShape scenStore scenStore scenRaw
      10 10 rfl).2.1
    intro j h1 h2
    have hc : 0 ≤ j ∧ j ≤ 10 := by omega
    simp only [scenStore, if_pos hc, Option.isSome_some]
  · exact (fetch_failure_semantics scenShape scenBadStore scenBadStore scenRaw
      0 10 rfl).2.2.2.1 rfl
  · exact (fetch_failure_semantics scenShape scenStore scenStore scenRaw
      10 10 rfl).2.2.2.2.1 (by rfl)

lemma toString_nat_zero : toString (0 : ℕ) = "0" := rfl

lemma toString_nat_one : toString (1 : ℕ) = "1" := rfl

/-- C3: `get_obs` is not pure in its `raw_data` input.  In the spec's own
test scenario the call overwrites channel 0 of rows 1..9 of `raw_data["0"]`
(through the numpy views `raw_data["0"][::1][1:]`) with the transformed
delta series: afterwards row 1 holds `-9000` where the raw window held the
tick `100.2`. -/
theorem get_obs_mutates_raw_data :
    (get_obs scenCfg scenItv scenRaw).2 ≠ scenRaw ∧
    (lookupD (get_obs scenCfg scenItv scenRaw).2.feat "0" []).getD 1 [] =
      [-9000] ∧
    (lookupD scenRaw.feat "0" []).getD 1 [] = [501 / 5] := by
  have hmut : (lookupD (get_obs scenCfg scenItv scenRaw).2.feat "0" []).getD 1 [] =
      [-9000] := by
    simp [get_obs, getObsStep, processGroup, featsOut, deltaSeries, mutateStride,
      pyStride, lookupD, assocSet, scenItv, scenCfg, scenRaw, pipOf, tsOf, fcOf,
      List.range_succ, toString_nat_zero]
    norm_num
  have horig : (lookupD scenRaw.feat "0" []).getD 1 [] = [501 / 5] := by
    simp [scenRaw, lookupD]
    norm_num
  refine ⟨?_, hmut, horig⟩
  intro h
  rw [h] at hmut
  rw [hmut] at horig
  have : (-9000 : ℚ) = 501 / 5 := by
    injection horig with h1 h2
  norm_num at this

/-- C2 counterexample: in the scenario the delta series at the first
retained point is `(100.1 - 101.0)/0.0001 = -9000`, not
`-(100.9 - 101.0)/0.0001 = 1000` as the claim states. -/
theorem obs_scenario_first_point_cex :
    (featsOut (1 / 10000) [] (pyStride (lookupD scenRaw.feat "0" []) 1)).getD 0 0 =
      -9000 ∧
    (lookupD (get_obs scenCfg scenItv scenRaw).1.groups "0" []).getD 0 [] =
      [-9000] ∧
    ((-9000 : ℚ) ≠ -(1009 / 10 - 101) / (1 / 10000)) := by
  refine ⟨?_, ?_, by norm_num⟩
  · simp [featsOut, deltaSeries, pyStride, lookupD, scenRaw]
    norm_num
  · simp [get_obs, getObsStep, processGroup, featsOut, deltaSeries, mutateStride,
      pyStride, lookupD, assocSet, scenItv, scenCfg, scenRaw, pipOf, tsOf, fcOf,
      List.range_succ, toString_nat_zero]
    norm_num [deltaSeries]

/-- C2 (amended): group 0's output channel is the downsample / delta /
pip-normalise / transform pipeline applied to its buffer, and in the
concrete scenario the downsampled length is 10, the delta series is zero at
the last pre-drop point, and the first retained point is
`(100.1 - 101.0)/0.0001 = -9000` (the last retained point being
`(100.9 - 101.0)/0.0001 = -1000`). -/
theorem obs_pipeline_scenario
    (cfg : GymConfig) (itv : List (String × ℕ)) (raw : RawData) (s : ℕ)
    (hmem : (toString 0, s) ∈ itv)
    (hnd : (itv.map Prod.fst).Nodup)
    (hinj : ∀ g', g' < itv.length → toString g' = toString 0 → g' = 0) :
    lookupD (get_obs cfg itv raw).1.groups (toString 0) [] =
      processGroup (pipOf cfg 0) (tsOf cfg 0)
        (pyStride (lookupD raw.feat (toString 0) []) s) ∧
    (pyStride (lookupD scenRaw.feat "0" []) 1).length = 10 ∧
    (deltaSeries (pyStride (lookupD scenRaw.feat "0" []) 1)).getLastD 1 = 0 ∧
    (featsOut (1 / 10000) [] (pyStride (lookupD scenRaw.feat "0" []) 1)).getD 0 0 =
      (1001 / 10 - 101) / (1 / 10000) ∧
    ((1001 / 10 - 101) / (1 / 10000) : ℚ) = -9000 ∧
    (featsOut (1 / 10000) [] (pyStride (lookupD scenRaw.feat "0" []) 1)).getLastD 1 =
      (1009 / 10 - 101) / (1 / 10000) ∧
    lookupD (get_obs scenCfg scenItv scenRaw).1.groups "0" [] =
      [[-9000], [-8000], [-7000], [-6000], [-5000], [-4000], [-3000], [-2000],
       [-1000]] := by
  have hlen : 0 < itv.length := List.length_pos.mpr (List.ne_nil_of_mem hmem)
  refine ⟨(get_obs_group cfg itv raw 0 s hmem hnd hinj hlen).1, ?_, ?_, ?_,
    by norm_num, ?_, ?_⟩
  · simp [pyStride, lookupD, scenRaw]
  · simp [deltaSeries, pyStride, lookupD, scenRaw]
  · simp [featsOut, deltaSeries, pyStride, lookupD, scenRaw]
    norm_num
  · simp [featsOut, deltaSeries, pyStride, lookupD, scenRaw]
    norm_num
  · simp [get_obs, getObsStep, processGroup, featsOut, deltaSeries, mutateStride,
      pyStride, lookupD, assocSet, scenItv, scenCfg, scenRaw, pipOf, tsOf, fcOf,
      List.range_succ, toString_nat_zero]
    norm_num

theorem obs_pipeline_scenario_instance :
    lookupD (get_obs scenCfg scenItv scenRaw).1.groups (toString 0) [] =
      processGroup (pipOf scenCfg 0) (tsOf scenCfg 0)
        (pyStride (lookupD scenRaw.feat (toString 0) []) 1) :=
  (obs_pipeline_scenario scenCfg scenItv scenRaw 1 (by decide) (by decide)
    (fun g' hg' _ => by simp [scenItv] at hg'; omega)).1

lemma foldl_apply_length (ts : List (List ℚ → List ℚ))
    (hts : ∀ t, t ∈ ts → ∀ l : List ℚ, (t l).length = l.length) :
    ∀ base : List ℚ, (ts.foldl (fun a t => t a) base).length = base.length := by
  induction ts with
  | nil => intro base; rfl
  | cons t rest ih =>
    intro base
    simp only [List.foldl_cons]
    rw [ih (fun t ht l => hts t (List.mem_cons_of_mem _ ht) l) (t base),
      hts t (List.mem_cons_self _ _) base]

lemma featsOut_length (pip : ℚ) (ts : List (List ℚ → List ℚ)) (arr : FArr)
    (hts : ∀ t, t ∈ ts → ∀ l : List ℚ, (t l).length = l.length) :
    (featsOut pip ts arr).length = arr.length - 1 := by
  rw [featsOut, foldl_apply_length ts hts]
  simp [deltaSeries]

lemma zipWith_setcol_map_drop (f : List ℚ) (a : FArr) (h : f.length = a.length) :
    (List.zipWith (fun v row => v :: row.drop 1) f a).map (fun r => r.drop 1) =
      a.map fun r => r.drop 1 := by
  induction f generalizing a with
  | nil =>
    cases a with
    | nil => rfl
    | cons x xs => simp at h
  | cons v vs ih =>
    cases a with
    | nil => simp at h
    | cons x xs =>
      simp only [List.zipWith_cons_cons, List.map_cons]
      rw [ih xs (by simpa using h)]
      simp

/-- Config of the counterexample: two feature groups, both bound to a symbol
with pip 1 and an empty transform chain. -/
def cfg2 : GymConfig := ⟨[⟨[⟨"A", []⟩]⟩, ⟨[⟨"A", []⟩]⟩], fun _ => 0, [⟨1⟩]⟩

/-- Downsample intervals of the counterexample: two groups, stride 1. -/
def itv2 : List (String × ℕ) := [("0", 1), ("1", 1)]

/-- Raw window of the counterexample: group "1" holds the 1-channel rows
`[3], [5]`. -/
def raw2 : RawData := ⟨[("0", [[1], [2]]), ("1", [[3], [5]])], 0, 0, [0]⟩

/-- C4 counterexample: with two feature groups, group 1 does not pass
through downsampling only — its output is the delta/normalise/transform
treatment `[[-2]]`, not the stride-1 downsample `[[3],[5]]` of its buffer. -/
theorem downsample_only_cex :
    lookupD (get_obs cfg2 itv2 raw2).1.groups "1" [] = [[-2]] ∧
    pyStride (lookupD raw2.feat "1" []) 1 = [[3], [5]] ∧
    ([[-2]] : FArr) ≠ [[3], [5]] := by
  refine ⟨?_, by simp [pyStride, lookupD, raw2], by simp⟩
  simp [get_obs, getObsStep, processGroup, featsOut, deltaSeries, mutateStride,
    pyStride, lookupD, assocSet, itv2, cfg2, raw2, pipOf, tsOf, fcOf,
    List.range_succ, toString_nat_zero, toString_nat_one]
  norm_num

/-- C4 (amended): the delta/normalise/transform treatment is applied to
channel 0 of every feature group (each with its own first-simple-feature
config), not only group 0; the other channels of each group pass through
downsampling plus the drop of the first downsampled row. -/
theorem treatment_every_group
    (cfg : GymConfig) (itv : List (String × ℕ)) (raw : RawData) (g : ℕ) (s : ℕ)
    (hmem : (toString g, s) ∈ itv)
    (hnd : (itv.map Prod.fst).Nodup)
    (hinj : ∀ g', g' < itv.length → toString g' = toString g → g' = g)
    (hg : g < itv.length)
    (hts : ∀ t, t ∈ tsOf cfg g → ∀ l : List ℚ, (t l).length = l.length) :
    lookupD (get_obs cfg itv raw).1.groups (toString g) [] =
      processGroup (pipOf cfg g) (tsOf cfg g)
        (pyStride (lookupD raw.feat (toString g) []) s) ∧
    (lookupD (get_obs cfg itv raw).1.groups (toString g) []).map (fun r => r.drop 1) =
      ((pyStride (lookupD raw.feat (toString g) []) s).drop 1).map
        (fun r => r.drop 1) := by
  have hmain := (get_obs_group cfg itv raw g s hmem hnd hinj hg).1
  refine ⟨hmain, ?_⟩
  rw [hmain, processGroup]
  apply zipWith_setcol_map_drop
  rw [featsOut_length _ _ _ hts]
  simp

theorem treatment_every_group_instance :
    lookupD (get_obs cfg2 itv2 raw2).1.groups (toString 1) [] =
      processGroup (pipOf cfg2 1) (tsOf cfg2 1)
        (pyStride (lookupD raw2.feat (toString 1) []) 1) ∧
    (lookupD (get_obs cfg2 itv2 raw2).1.groups (toString 1) []).map
        (fun r => r.drop 1) =
      ((pyStride (lookupD raw2.feat (toString 1) []) 1).drop 1).map
        (fun r => r.drop 1) :=
  treatment_every_group cfg2 itv2 raw2 1 1 (by decide) (by decide)
    (fun g' hg' heq => by
      simp [itv2] at hg'
      interval_cases g'
      · exact absurd heq (by decide)
      · rfl)
    (by decide)
    (fun t ht l => by
      have h0 : tsOf cfg2 1 = [] := rfl
      rw [h0] at ht
      cases ht)

lemma pyInt_eq (q : ℚ) (z : ℤ) (h0 : 0 ≤ q) (h1 : (z : ℚ) ≤ q)
    (h2 : q < z + 1) : pyInt q = z := by
  rw [pyInt, if_pos h0]
  exact Int.floor_eq_iff.mpr ⟨h1, h2⟩

/-- A draw function that always returns the lower end of the range. -/
def constLo : ℤ → ℤ → ℤ := fun lo _ => lo

lemma constLo_valid : RandValid constLo := fun lo _ h => ⟨le_refl lo, h⟩

lemma sample_price_grid (rand : ℤ → ℤ → ℤ) (hr : RandValid rand)
    (min_p max_p pip : ℚ) (hp : 0 < pip) (hle : min_p ≤ max_p)
    (hmin : onPipGrid pip min_p) (hmax : onPipGrid pip max_p) :
    min_p ≤ sample_price rand min_p max_p pip ∧
    sample_price rand min_p max_p pip ≤ max_p ∧
    (min_p = max_p → sample_price rand min_p max_p pip = min_p) := by
  rw [onPipGrid] at hmin hmax
  have hpip10 : (0 : ℚ) < pip / 10 := by linarith
  have hab : pyInt (min_p * 10 / pip) ≤ pyInt (max_p * 10 / pip) := by
    by_contra hc
    push_neg at hc
    have hlt : (pyInt (max_p * 10 / pip) : ℚ) * (pip / 10) <
        (pyInt (min_p * 10 / pip) : ℚ) * (pip / 10) := by
      apply mul_lt_mul_of_pos_right _ hpip10
      exact_mod_cast hc
    rw [hmin, hmax] at hlt
    linarith
  obtain ⟨h1, h2⟩ := hr (pyInt (min_p * 10 / pip)) (pyInt (max_p * 10 / pip) + 1)
    (by omega)
  rw [sample_price]
  have hr1 : (pyInt (min_p * 10 / pip) : ℚ) ≤
      (rand (pyInt (min_p * 10 / pip)) (pyInt (max_p * 10 / pip) + 1) : ℚ) := by
    exact_mod_cast h1
  have hr2 : (rand (pyInt (min_p * 10 / pip)) (pyInt (max_p * 10 / pip) + 1) : ℚ) ≤
      (pyInt (max_p * 10 / pip) : ℚ) := by
    exact_mod_cast (by omega : rand (pyInt (min_p * 10 / pip))
      (pyInt (max_p * 10 / pip) + 1) ≤ pyInt (max_p * 10 / pip))
  refine ⟨?_, ?_, ?_⟩
  · calc min_p = (pyInt (min_p * 10 / pip) : ℚ) * (pip / 10) := hmin.symm
      _ ≤ (rand (pyInt (min_p * 10 / pip)) (pyInt (max_p * 10 / pip) + 1) : ℚ) *
            (pip / 10) := mul_le_mul_of_nonneg_right hr1 (le_of_lt hpip10)
      _ = (rand (pyInt (min_p * 10 / pip)) (pyInt (max_p * 10 / pip) + 1) : ℚ) *
            pip / 10 := by ring
  · calc (rand (pyInt (min_p * 10 / pip)) (pyInt (max_p * 10 / pip) + 1) : ℚ) *
          pip / 10
        = (rand (pyInt (min_p * 10 / pip)) (pyInt (max_p * 10 / pip) + 1) : ℚ) *
            (pip / 10) := by ring
      _ ≤ (pyInt (max_p * 10 / pip) : ℚ) * (pip / 10) :=
          mul_le_mul_of_nonneg_right hr2 (le_of_lt hpip10)
      _ = max_p := hmax
  · intro heq
    have hcast : (pyInt (min_p * 10 / pip) : ℚ) = (pyInt (max_p * 10 / pip) : ℚ) := by
      have := hmin.trans (heq.trans hmax.symm)
      exact mul_right_cancel₀ (ne_of_gt hpip10) this
    have hz : pyInt (min_p * 10 / pip) = pyInt (max_p * 10 / pip) := by
      exact_mod_cast hcast
    have hreq : rand (pyInt (min_p * 10 / pip)) (pyInt (max_p * 10 / pip) + 1) =
        pyInt (min_p * 10 / pip) := by omega
    rw [hreq]
    calc ((pyInt (min_p * 10 / pip) : ℚ)) * pip / 10
        = (pyInt (min_p * 10 / pip) : ℚ) * (pip / 10) := by ring
      _ = min_p := hmin

/-- C5 counterexample: for `min_p = max_p = 0.15` (not on the `pip/10` grid
for `pip = 1`) the only drawable integer is `int(1.5) = 1`, so `sample_price`
returns `0.1`, strictly below `min_p` and different from the degenerate
price. -/
theorem sample_price_off_grid_cex :
    RandValid constLo ∧
    sample_price constLo (3 / 20) (3 / 20) 1 = 1 / 10 ∧
    ¬ ((3 / 20 : ℚ) ≤ sample_price constLo (3 / 20) (3 / 20) 1) := by
  have hval : sample_price constLo (3 / 20) (3 / 20) 1 = 1 / 10 := by
    rw [sample_price]
    have h32 : ((3 : ℚ) / 20) * 10 / 1 = 3 / 2 := by norm_num
    rw [h32, pyInt_eq (3 / 2) 1 (by norm_num) (by norm_num) (by norm_num)]
    show ((1 : ℤ) : ℚ) * 1 / 10 = 1 / 10
    norm_num
  exact ⟨constLo_valid, hval, by rw [hval]; norm_num⟩

/-- C5 (amended): when `min_p` and `max_p` lie on the `pip/10` grid, every
valid draw of `sample_price` lands in `[min_p, max_p]`; the result is always
an integer multiple of `pip/10`; and the degenerate case `min_p = max_p`
returns exactly that price. -/
theorem sample_price_grid_correct (rand : ℤ → ℤ → ℤ) (min_p max_p pip : ℚ)
    (hr : RandValid rand) (hp : 0 < pip) (hle : min_p ≤ max_p)
    (hmin : onPipGrid pip min_p) (hmax : onPipGrid pip max_p) :
    (min_p ≤ sample_price rand min_p max_p pip ∧
     sample_price rand min_p max_p pip ≤ max_p) ∧
    (∃ k : ℤ, sample_price rand min_p max_p pip = (k : ℚ) * (pip / 10)) ∧
    (min_p = max_p → sample_price rand min_p max_p pip = min_p) := by
  obtain ⟨hlo, hhi, hdeg⟩ :=
    sample_price_grid rand hr min_p max_p pip hp hle hmin hmax
  refine ⟨⟨hlo, hhi⟩, ?_, hdeg⟩
  refine ⟨rand (pyInt (min_p * 10 / pip)) (pyInt (max_p * 10 / pip) + 1), ?_⟩
  rw [sample_price]
  ring

lemma onPipGrid_pip4_11_10 : onPipGrid (1 / 10000) (11 / 10) := by
  rw [onPipGrid]
  have h1 : ((11 : ℚ) / 10) * 10 / (1 / 10000) = 110000 := by norm_num
  rw [h1, pyInt_eq 110000 110000 (by norm_num) (by norm_num) (by norm_num)]
  push_cast
  norm_num

lemma onPipGrid_pip4_6_5 : onPipGrid (1 / 10000) (6 / 5) := by
  rw [onPipGrid]
  have h1 : ((6 : ℚ) / 5) * 10 / (1 / 10000) = 120000 := by norm_num
  rw [h1, pyInt_eq 120000 120000 (by norm_num) (by norm_num) (by norm_num)]
  push_cast
  norm_num

theorem sample_price_grid_instance :
    ((11 / 10 : ℚ) ≤ sample_price constLo (11 / 10) (6 / 5) (1 / 10000) ∧
     sample_price constLo (11 / 10) (6 / 5) (1 / 10000) ≤ 6 / 5) ∧
    (∃ k : ℤ, sample_price constLo (11 / 10) (6 / 5) (1 / 10000) =
      (k : ℚ) * (1 / 10000 / 10)) ∧
    ((11 / 10 : ℚ) = 6 / 5 →
      sample_price constLo (11 / 10) (6 / 5) (1 / 10000) = 11 / 10) :=
  sample_price_grid_correct constLo (11 / 10) (6 / 5) (1 / 10000) constLo_valid
    (by norm_num) (by norm_num) onPipGrid_pip4_11_10 onPipGrid_pip4_6_5

lemma getD_range_map {β : Type} (n i : ℕ) (F : ℕ → β) (d : β) (h : i < n) :
    ((List.range n).map F).getD i d = F i := by
  rw [List.getD_eq_getElem?_getD, List.getElem?_map, List.getElem?_range h]
  rfl

/-- Two symbols whose pip is 1, for the off-grid counterexample. -/
def siPair : List SymbolInfo := [⟨1⟩, ⟨1⟩]

/-- Price vector whose first bid range is the off-grid `[0.15, 0.15]`. -/
def pricePair : List ℚ := [3 / 20, 3 / 20, 1, 1, 1, 1, 1, 1]

lemma sample_price_constLo_off_grid :
    sample_price constLo (3 / 20) (3 / 20) 1 = 1 / 10 := by
  rw [sample_price]
  have h32 : ((3 : ℚ) / 20) * 10 / 1 = 3 / 2 := by norm_num
  rw [h32, pyInt_eq (3 / 2) 1 (by norm_num) (by norm_num) (by norm_num)]
  show ((1 : ℤ) : ℚ) * 1 / 10 = 1 / 10
  norm_num

/-- C7 counterexample: with two symbols of pip 1 and the off-grid bid range
`[0.15, 0.15]`, the bid entry of row 0 is `0.1`, outside its
`[low, high]` range. -/
theorem get_curr_price_range_cex :
    RandValid constLo ∧
    ((get_curr_price constLo siPair pricePair).getD 0 []).getD 0 0 = 1 / 10 ∧
    ¬ ((3 / 20 : ℚ) ≤
        ((get_curr_price constLo siPair pricePair).getD 0 []).getD 0 0) := by
  have hval : ((get_curr_price constLo siPair pricePair).getD 0 []).getD 0 0 =
      1 / 10 := by
    have h0 : ((get_curr_price constLo siPair pricePair).getD 0 []).getD 0 0 =
        sample_price constLo (3 / 20) (3 / 20) 1 := by
      simp [get_curr_price, siPair, pricePair, List.range_succ]
    rw [h0, sample_price_constLo_off_grid]
  exact ⟨constLo_valid, hval, by rw [hval]; norm_num⟩

/-- C7 (amended): `get_curr_price` returns one `[bid, ask]` row per symbol,
row `i` sampled from `price[4i..4i+3]`; when the price bounds lie on the
`pip/10` grid of `symbol_info[0].pip` every entry lies in its `[low, high]`
range; and the result depends on `symbol_info` only through its length and
entry 0 (the pip of `symbol_info[0]` is used for every symbol). -/
theorem get_curr_price_correct (rand : ℤ → ℤ → ℤ) (si si2 : List SymbolInfo)
    (price : List ℚ)
    (hr : RandValid rand)
    (hp : 0 < (si.getD 0 default).pip)
    (hgrid : ∀ j, j < 4 * si.length →
      onPipGrid (si.getD 0 default).pip (price.getD j 0))
    (hord : ∀ i, i < si.length →
      price.getD (4 * i) 0 ≤ price.getD (4 * i + 1) 0 ∧
      price.getD (4 * i + 2) 0 ≤ price.getD (4 * i + 3) 0) :
    (get_curr_price rand si price).length = si.length ∧
    (∀ row, row ∈ get_curr_price rand si price → row.length = 2) ∧
    (∀ i, i < si.length → (get_curr_price rand si price).getD i [] =
      [sample_price rand (price.getD (4 * i) 0) (price.getD (4 * i + 1) 0)
         (si.getD 0 default).pip,
       sample_price rand (price.getD (4 * i + 2) 0) (price.getD (4 * i + 3) 0)
         (si.getD 0 default).pip]) ∧
    (∀ i, i < si.length →
      (price.getD (4 * i) 0 ≤
         ((get_curr_price rand si price).getD i []).getD 0 0 ∧
       ((get_curr_price rand si price).getD i []).getD 0 0 ≤
         price.getD (4 * i + 1) 0) ∧
      (price.getD (4 * i + 2) 0 ≤
         ((get_curr_price rand si price).getD i []).getD 1 0 ∧
       ((get_curr_price rand si price).getD i []).getD 1 0 ≤
         price.getD (4 * i + 3) 0)) ∧
    (si2.length = si.length → si2.getD 0 default = si.getD 0 default →
      get_curr_price rand si2 price = get_curr_price rand si price) := by
  have hrow : ∀ i, i < si.length → (get_curr_price rand si price).getD i [] =
      [sample_price rand (price.getD (4 * i) 0) (price.getD (4 * i + 1) 0)
         (si.getD 0 default).pip,
       sample_price rand (price.getD (4 * i + 2) 0) (price.getD (4 * i + 3) 0)
         (si.getD 0 default).pip] := by
    intro i hi
    rw [get_curr_price, getD_range_map _ _ _ _ hi]
  refine ⟨by simp [get_curr_price], ?_, hrow, ?_, ?_⟩
  · intro row hmem
    rw [get_curr_price] at hmem
    simp only [List.mem_map] at hmem
    obtain ⟨i, _, heq⟩ := hmem
    rw [← heq]
    rfl
  · intro i hi
    rw [hrow i hi]
    have hb := sample_price_grid rand hr (price.getD (4 * i) 0)
      (price.getD (4 * i + 1) 0) (si.getD 0 default).pip hp (hord i hi).1
      (hgrid (4 * i) (by omega)) (hgrid (4 * i + 1) (by omega))
    have ha := sample_price_grid rand hr (price.getD (4 * i + 2) 0)
      (price.getD (4 * i + 3) 0) (si.getD 0 default).pip hp (hord i hi).2
      (hgrid (4 * i + 2) (by omega)) (hgrid (4 * i + 3) (by omega))
    simp only [List.getD_cons_zero, List.getD_cons_succ]
    exact ⟨⟨hb.1, hb.2.1⟩, ⟨ha.1, ha.2.1⟩⟩
  · intro h1 h2
    simp only [get_curr_price]
    rw [h1, h2]

/-- Two symbols with pip `0.0001`, for the grid-aligned witness. -/
def siW : List SymbolInfo := [⟨1 / 10000⟩, ⟨1 / 10000⟩]

/-- Grid-aligned price vector for the witness. -/
def priceW : List ℚ := [11/10, 11/10, 6/5, 6/5, 11/10, 11/10, 6/5, 6/5]

theorem get_curr_price_instance :
    (get_curr_price constLo siW priceW).length = 2 ∧
    ((11 / 10 : ℚ) ≤ ((get_curr_price constLo siW priceW).getD 0 []).getD 0 0 ∧
     ((get_curr_price constLo siW priceW).getD 0 []).getD 0 0 ≤ 11 / 10) := by
  have h := get_curr_price_correct constLo siW siW priceW constLo_valid
    (by norm_num [siW])
    (by
      intro j hj
      simp only [siW, List.getD_cons_zero]
      have hj8 : j < 8 := by simpa [siW] using hj
      interval_cases j <;>
        simp only [priceW, List.getD_cons_zero, List.getD_cons_succ] <;>
        first
          | exact onPipGrid_pip4_11_10
          | exact onPipGrid_pip4_6_5)
    (by
      intro i hi
      have hi2 : i < 2 := by simpa [siW] using hi
      interval_cases i <;>
        simp only [priceW, List.getD_cons_zero, List.getD_cons_succ] <;>
        norm_num)
  exact ⟨h.1, (h.2.2.2.1 0 (by norm_num [siW])).1⟩

lemma sel_length (r : List ℚ) (M : ℕ) (hM : 1 ≤ M) (hr : r.length = 7 * M) :
    (pyStride (r.drop 5) 7).length = M := by
  rw [pyStride_length 7 (by omega), List.length_drop, hr]
  have h1 : 7 * M - 5 + 7 - 1 = 7 * M + 1 := by omega
  rw [h1, Nat.mul_add_div (by omega)]
  simp

lemma sel_decomp (r : List ℚ) (M : ℕ) (hM : 2 ≤ M) (hr : r.length = 7 * M) :
    ∃ T : List ℚ, pyStride (r.drop 5) 7 = r.getD 5 0 :: r.getD 12 0 :: T := by
  have h5 : 5 < r.length := by omega
  have h12 : 12 < r.length := by omega
  refine ⟨pyStride (r.drop 19) 7, ?_⟩
  have hd5 : r.drop 5 = r.getD 5 0 :: r.drop 6 := by
    rw [List.getD_eq_getElem r 0 h5]
    exact List.drop_eq_getElem_cons h5
  have hd12 : r.drop 12 = r.getD 12 0 :: r.drop 13 := by
    rw [List.getD_eq_getElem r 0 h12]
    exact List.drop_eq_getElem_cons h12
  rw [hd5, pyStride]
  have h66 : (r.drop 6).drop 6 = r.drop 12 := by
    rw [List.drop_drop]
  have h136 : (r.drop 13).drop 6 = r.drop 19 := by
    rw [List.drop_drop]
  simp only [show (7 : ℕ) - 1 = 6 from rfl, h66, hd12, pyStride, h136]

lemma portfolio_guard_true (lt : ℚ → ℚ) (P : List (List ℚ)) (M : ℕ)
    (hM : 2 ≤ M) (hw : ∀ r ∈ P, r.length = 7 * M) :
    portfolio_to_model_input lt P =
      some ((P.zip (P.map fun r => pyStride (r.drop 5) 7)).foldr
        (fun rs acc =>
          (match rs.2 with
           | a :: b :: rest => (a * rs.1.getD 6 0 / 2) :: scale_pos_val lt b :: rest
           | other => other) ++ acc) []) := by
  rw [portfolio_to_model_input, if_pos]
  constructor
  · rw [List.all_eq_true]
    intro s hs
    rw [List.mem_map] at hs
    obtain ⟨r, hr, hsel⟩ := hs
    rw [← hsel]
    simp only [decide_eq_true_eq]
    rw [sel_length r M (by omega) (hw r hr)]
    omega
  · rw [List.all_eq_true]
    intro r hr
    simp only [decide_eq_true_eq]
    rw [hw r hr]
    omega

/-- A one-row portfolio matrix with 14 columns (`K = 1`, `M = 2`). -/
def P14 : List (List ℚ) := [[0, 1, 2, 3, 4, 5, 6, 7, 8, 9, 10, 11, 12, 13]]

lemma portfolio_narrow (lt : ℚ → ℚ) (P : List (List ℚ)) (w : ℕ)
    (hne : P ≠ []) (hw : ∀ r ∈ P, r.length = w) (h13 : w < 13) :
    portfolio_to_model_input lt P = none := by
  cases P with
  | nil => exact absurd rfl hne
  | cons r0 rest =>
    rw [portfolio_to_model_input, if_neg]
    intro hand
    obtain ⟨hA, _⟩ := hand
    rw [List.all_eq_true] at hA
    have hsel := hA (pyStride (r0.drop 5) 7)
      (List.mem_map_of_mem _ (List.mem_cons_self _ _))
    rw [decide_eq_true_eq] at hsel
    have hlen : (pyStride (r0.drop 5) 7).length = (w - 5 + 6) / 7 := by
      rw [pyStride_length 7 (by omega), List.length_drop,
        hw r0 (List.mem_cons_self _ _)]
      congr 1
    rw [hlen] at hsel
    have hdiv : (w - 5 + 6) / 7 < 2 := Nat.div_lt_of_lt_mul (by omega)
    omega

lemma portfolio_wide (lt : ℚ → ℚ) (P : List (List ℚ)) (w : ℕ)
    (hw : ∀ r ∈ P, r.length = w) (h13 : 13 ≤ w) :
    (portfolio_to_model_input lt P).isSome := by
  rw [portfolio_to_model_input, if_pos]
  · rfl
  constructor
  · rw [List.all_eq_true]
    intro s hs
    rw [List.mem_map] at hs
    obtain ⟨r, hr, hsel⟩ := hs
    rw [← hsel, decide_eq_true_eq, pyStride_length 7 (by omega),
      List.length_drop, hw r hr]
    rw [Nat.le_div_iff_mul_le (by omega)]
    omega
  · rw [List.all_eq_true]
    intro r hr
    rw [decide_eq_true_eq, hw r hr]
    omega

/-- C6 counterexample: a single-row portfolio with `7*2 = 14` columns
(`K = 1`, `M = 2`) yields an output of length `K*M = 2`, not `2*M = 4`; and
for `M = 1` (7 columns) the second-column access is out of bounds, so no
output is produced at all. -/
theorem portfolio_length_cex :
    P14.length = 1 ∧
    (∀ r, r ∈ P14 → r.length = 7 * 2) ∧
    ((portfolio_to_model_input id P14).getD []).length = 2 ∧
    (2 : ℕ) ≠ 2 * 2 ∧
    portfolio_to_model_input id [[0, 1, 2, 3, 4, 5, 6]] = none := by
  refine ⟨rfl, by decide, ?_, by omega, ?_⟩
  · rw [portfolio_guard_true id P14 2 (by omega) (by decide)]
    simp [P14, pyStride]
  · exact portfolio_narrow id [[0, 1, 2, 3, 4, 5, 6]] 7 (by simp)
      (by decide) (by omega)

lemma portfolio_zip_foldr (lt : ℚ → ℚ) (M : ℕ) (hM : 2 ≤ M) :
    ∀ P : List (List ℚ), (∀ r ∈ P, r.length = 7 * M) →
      (P.zip (P.map fun r => pyStride (r.drop 5) 7)).foldr
        (fun rs acc =>
          (match rs.2 with
           | a :: b :: rest => (a * rs.1.getD 6 0 / 2) :: scale_pos_val lt b :: rest
           | other => other) ++ acc) [] =
      P.foldr (fun r acc =>
        ((r.getD 5 0 * r.getD 6 0 / 2) :: scale_pos_val lt (r.getD 12 0) ::
          (pyStride (r.drop 5) 7).drop 2) ++ acc) [] := by
  intro P
  induction P with
  | nil => intro _; rfl
  | cons r rest ih =>
    intro hw
    obtain ⟨T, hT⟩ := sel_decomp r M hM (hw r (List.mem_cons_self _ _))
    simp only [List.map_cons, List.zip_cons_cons, List.foldr_cons]
    rw [ih (fun r2 hr2 => hw r2 (List.mem_cons_of_mem _ hr2)), hT]
    simp

lemma portfolio_output_length (lt : ℚ → ℚ) (M : ℕ) (hM : 2 ≤ M) :
    ∀ P : List (List ℚ), (∀ r ∈ P, r.length = 7 * M) →
      (P.foldr (fun r acc =>
        ((r.getD 5 0 * r.getD 6 0 / 2) :: scale_pos_val lt (r.getD 12 0) ::
          (pyStride (r.drop 5) 7).drop 2) ++ acc) []).length = P.length * M := by
  intro P
  induction P with
  | nil => intro _; simp
  | cons r rest ih =>
    intro hw
    have hT : ((pyStride (r.drop 5) 7).drop 2).length = M - 2 := by
      rw [List.length_drop, sel_length r M (by omega) (hw r (List.mem_cons_self _ _))]
    have hih := ih (fun r2 hr2 => hw r2 (List.mem_cons_of_mem _ hr2))
    simp only [List.foldr_cons, List.length_append, List.length_cons, hT, hih]
    have hexp : (rest.length + 1) * M = rest.length * M + M := by ring
    rw [hexp]
    generalize rest.length * M = km
    omega

/-- C6 (amended): for `K ≥ 1` rows and `M ≥ 2` slots (width `7*M ≥ 14`),
`portfolio_to_model_input` selects every 7th column from offset 5, multiplies
the first selected column by column 6 over 2, applies `scale_pos_val` to the
second selected column, and flattens row-major — yielding an output of
length `K*M` (not `2*M`). -/
theorem portfolio_encoding_correct (lt : ℚ → ℚ) (P : List (List ℚ)) (K M : ℕ)
    (hK : P.length = K) (_hK1 : 1 ≤ K) (hM : 2 ≤ M)
    (hw : ∀ r ∈ P, r.length = 7 * M) :
    portfolio_to_model_input lt P =
      some (P.foldr (fun r acc =>
        ((r.getD 5 0 * r.getD 6 0 / 2) :: scale_pos_val lt (r.getD 12 0) ::
          (pyStride (r.drop 5) 7).drop 2) ++ acc) []) ∧
    (∀ v, portfolio_to_model_input lt P = some v → v.length = K * M) := by
  have hmain : portfolio_to_model_input lt P =
      some (P.foldr (fun r acc =>
        ((r.getD 5 0 * r.getD 6 0 / 2) :: scale_pos_val lt (r.getD 12 0) ::
          (pyStride (r.drop 5) 7).drop 2) ++ acc) []) := by
    rw [portfolio_guard_true lt P M hM hw]
    rw [portfolio_zip_foldr lt M hM P hw]
  refine ⟨hmain, ?_⟩
  intro v hv
  rw [hmain] at hv
  injection hv with hv
  rw [← hv, portfolio_output_length lt M hM P hw, hK]

theorem portfolio_encoding_instance :
    portfolio_to_model_input id P14 =
      some (P14.foldr (fun r acc =>
        ((r.getD 5 0 * r.getD 6 0 / 2) :: scale_pos_val id (r.getD 12 0) ::
          (pyStride (r.drop 5) 7).drop 2) ++ acc) []) :=
  (portfolio_encoding_correct id P14 1 2 rfl (by omega) (by omega) (by decide)).1

/-- C10: a portfolio matrix with fewer than 13 columns makes the
stride-7/offset-5 selection yield fewer than two columns, so the access to
the second selected column is out of bounds and no result is produced; for
width at least 13 the indexing is in range and a result exists. -/
theorem portfolio_min_width (lt : ℚ → ℚ) (P : List (List ℚ)) (w : ℕ)
    (hne : P ≠ []) (hw : ∀ r ∈ P, r.length = w) :
    (w < 13 → portfolio_to_model_input lt P = none) ∧
    (13 ≤ w → (portfolio_to_model_input lt P).isSome) :=
  ⟨fun h => portfolio_narrow lt P w hne hw h,
   fun h => portfolio_wide lt P w hw h⟩

theorem portfolio_min_width_instance :
    portfolio_to_model_input id [[0, 1, 2, 3, 4, 5, 6]] = none ∧
    (portfolio_to_model_input id P14).isSome :=
  ⟨(portfolio_min_width id [[0, 1, 2, 3, 4, 5, 6]] 7 (by simp) (by decide)).1
      (by omega),
   (portfolio_min_width id P14 14 (by simp [P14]) (by decide)).2 (by omega)⟩

/-- C8 (amended): for every `apply_log_tail` satisfying the spec's
description, `scale_pos_val` maps 0 to 0, is always within `[-2, 2]`, and
its output magnitude is monotone non-decreasing in `|x|` separately on each
sign of the input (monotonicity across signs fails, see the
counterexample). -/
theorem scale_pos_val_props (L : LogTailModel) :
    scale_pos_val L.f 0 = 0 ∧
    (∀ x : ℚ, -2 ≤ scale_pos_val L.f x ∧ scale_pos_val L.f x ≤ 2) ∧
    (∀ x1 x2 : ℚ, 0 ≤ x1 → x1 ≤ x2 →
      |scale_pos_val L.f x1| ≤ |scale_pos_val L.f x2|) ∧
    (∀ x1 x2 : ℚ, x2 ≤ x1 → x1 ≤ 0 →
      |scale_pos_val L.f x1| ≤ |scale_pos_val L.f x2|) := by
  have hzero : L.f 0 = 0 := L.identBelow 0 le_rfl
  have hval : ∀ x : ℚ, scale_pos_val L.f x =
      max (-2) (min 2 (L.f x / 3 + x * (3 / 100))) := fun _ => rfl
  have hclip_mono : ∀ y1 y2 : ℚ, y1 ≤ y2 →
      max (-2) (min 2 y1) ≤ max (-2) (min 2 y2) := fun _ _ h =>
    max_le_max (le_refl _) (min_le_min (le_refl _) h)
  have hinner_mono : ∀ x1 x2 : ℚ, x1 ≤ x2 →
      L.f x1 / 3 + x1 * (3 / 100) ≤ L.f x2 / 3 + x2 * (3 / 100) := by
    intro x1 x2 h
    have := L.mono h
    linarith
  refine ⟨?_, ?_, ?_, ?_⟩
  · rw [hval, hzero]
    norm_num
  · intro x
    rw [hval]
    exact ⟨le_max_left _ _, max_le (by norm_num) (min_le_left _ _)⟩
  · intro x1 x2 h0 h12
    have hf1 : 0 ≤ L.f x1 := by
      rcases eq_or_lt_of_le h0 with he | hl
      · rw [← he, hzero]
      · exact le_of_lt (L.signPos x1 hl)
    have hf2 : 0 ≤ L.f x2 := by
      rcases eq_or_lt_of_le (le_trans h0 h12) with he | hl
      · rw [← he, hzero]
      · exact le_of_lt (L.signPos x2 hl)
    have hpos1 : 0 ≤ scale_pos_val L.f x1 := by
      rw [hval]
      exact le_trans (le_min (by norm_num) (by linarith)) (le_max_right _ _)
    have hpos2 : 0 ≤ scale_pos_val L.f x2 := by
      rw [hval]
      have h02 : 0 ≤ x2 := le_trans h0 h12
      exact le_trans (le_min (by norm_num) (by linarith)) (le_max_right _ _)
    rw [abs_of_nonneg hpos1, abs_of_nonneg hpos2, hval, hval]
    exact hclip_mono _ _ (hinner_mono x1 x2 h12)
  · intro x1 x2 h21 h10
    have hfx1 : L.f x1 = x1 := L.identBelow x1 h10
    have hfx2 : L.f x2 = x2 := L.identBelow x2 (le_trans h21 h10)
    have hneg1 : scale_pos_val L.f x1 ≤ 0 := by
      rw [hval, hfx1]
      exact max_le (by norm_num) (le_trans (min_le_right _ _) (by linarith))
    have hneg2 : scale_pos_val L.f x2 ≤ 0 := by
      rw [hval, hfx2]
      have h20 : x2 ≤ 0 := le_trans h21 h10
      exact max_le (by norm_num) (le_trans (min_le_right _ _) (by linarith))
    rw [abs_of_nonpos hneg1, abs_of_nonpos hneg2, neg_le_neg_iff, hval, hval,
      hfx1, hfx2]
    exact hclip_mono _ _ (by linarith)

/-- The identity function as a conforming log-tail model. -/
def ltId : LogTailModel where
  f := fun x => x
  identBelow := fun _ _ => rfl
  mono := monotone_id
  signPos := fun _ hx => hx
  compress := fun x _ => le_refl x

theorem scale_pos_val_props_instance :
    scale_pos_val ltId.f 0 = 0 ∧
    (-2 ≤ scale_pos_val ltId.f 7 ∧ scale_pos_val ltId.f 7 ≤ 2) ∧
    |scale_pos_val ltId.f 1| ≤ |scale_pos_val ltId.f 2| ∧
    |scale_pos_val ltId.f (-1)| ≤ |scale_pos_val ltId.f (-2)| :=
  ⟨(scale_pos_val_props ltId).1,
   (scale_pos_val_props ltId).2.1 7,
   (scale_pos_val_props ltId).2.2.1 1 2 (by norm_num) (by norm_num),
   (scale_pos_val_props ltId).2.2.2 (-1) (-2) (by norm_num) (by norm_num)⟩

/-- A conforming log-tail model that halves positive values: identity at or
below the threshold, monotone, sign-preserving and compressing above it. -/
def ltHalf : LogTailModel where
  f := fun x => if x ≤ 0 then x else x / 2
  identBelow := fun _ hx => if_pos hx
  mono := by
    intro x y hxy
    dsimp only
    split_ifs with hx hy hy
    · exact hxy
    · push_neg at hy
      linarith
    · push_neg at hx
      linarith
    · linarith
  signPos := fun x hx => by
    simp only [if_neg (not_le.mpr hx)]
    linarith
  compress := fun x _ => by
    dsimp only
    split_ifs with h
    · exact le_refl x
    · linarith [not_le.mp h]

/-- C8 counterexample: magnitude monotonicity in `|x|` fails across signs
for a conforming log-tail model — at `|x| = 5` the positive side is
compressed (`59/60`) while the negative side is not (`109/60`). -/
theorem scale_pos_val_mag_mono_cex :
    |(-5 : ℚ)| ≤ |(5 : ℚ)| ∧
    |scale_pos_val ltHalf.f 5| < |scale_pos_val ltHalf.f (-5)| := by
  have h5 : scale_pos_val ltHalf.f 5 = 59 / 60 := by
    show max (-2) (min 2 (ltHalf.f 5 / 3 + 5 * (3 / 100))) = 59 / 60
    have hf : ltHalf.f 5 = 5 / 2 := by norm_num [ltHalf]
    rw [hf]
    rw [min_def, max_def]
    norm_num
  have hm5 : scale_pos_val ltHalf.f (-5) = -109 / 60 := by
    show max (-2) (min 2 (ltHalf.f (-5) / 3 + (-5) * (3 / 100))) = -109 / 60
    have hf : ltHalf.f (-5) = -5 := by norm_num [ltHalf]
    rw [hf]
    rw [min_def, max_def]
    norm_num
  rw [h5, hm5]
  constructor
  · norm_num
  · rw [abs_of_nonneg (by norm_num), abs_of_nonpos (by norm_num)]
    norm_num
